import Mathlib

/-!
Verification of the `aws-multi-log-inspector` core against its design
specification.  The Go sources are embedded shallowly: pure helpers become
Lean functions, the concurrent search coordinator becomes a function of the
order in which per-source outcomes are collected, and the external
capabilities (the JMESPath evaluator, the JSON decoder and the paged
CloudWatch query) are taken as function parameters, exactly as the code
consumes them through interfaces.
-/

namespace AwsMultiLogInspector

/-! ## JSON value trees (the Go `any` values produced by `encoding/json`) -/

/-- Generic JSON value tree: the model of the dynamically typed Go values
produced by `encoding/json.Unmarshal` (nil, bool, float64, string, `[]any`,
`map[string]any`) and returned by `jmespath.Search`.  Numbers are modelled
as integers; none of the verified properties depends on float formatting.
Object fields keep their syntactic order; only emptiness of objects is ever
inspected by the code under verification. -/
inductive Jval where
  | null : Jval
  | bool (b : Bool) : Jval
  | num (n : Int) : Jval
  | str (s : String) : Jval
  | arr (elems : List Jval) : Jval
  | obj (fields : List (String × Jval)) : Jval

/-- Model of `isEmpty` in `src/internal/util/jmes.go` (lines 106-122): nil is
empty, an empty string is empty, and a slice/array/map of length zero is
empty (the `reflect` fallback covers exactly the slice/array/map kinds);
every other value is non-empty. -/
def isEmptyVal : Jval → Bool
  | .null => true
  | .str t => t = ""
  | .arr l => l.isEmpty
  | .obj l => l.isEmpty
  | _ => false

/-- Lower-case hexadecimal digit for a value below 16, as produced by Go's
JSON encoder when it emits a `\u00XX` escape. -/
def hexDigit (n : Nat) : Char :=
  if n < 10 then Char.ofNat (48 + n) else Char.ofNat (87 + n)

/-- Model of the escaping Go's `encoding/json` applies to one character of a
string: quote and backslash are backslash-escaped, newline, carriage return
and tab use their short escapes, the HTML-sensitive characters and the
remaining control characters become `\uXXXX` escapes, and every other
character is emitted verbatim. -/
def jsonEscapeChar (c : Char) : List Char :=
  if c = '"' then ['\\', '"']
  else if c = '\\' then ['\\', '\\']
  else if c = '\n' then ['\\', 'n']
  else if c = '\r' then ['\\', 'r']
  else if c = '\t' then ['\\', 't']
  else if c = '<' then "\\u003c".data
  else if c = '>' then "\\u003e".data
  else if c = '&' then "\\u0026".data
  else if c.toNat < 32 then
    "\\u00".data ++ [hexDigit (c.toNat / 16), hexDigit (c.toNat % 16)]
  else if c.toNat = 0x2028 then "\\u2028".data
  else if c.toNat = 0x2029 then "\\u2029".data
  else [c]

/-- JSON string literal (quoted, fully escaped) of a character list: the model
of `json.Marshal` applied to a Go string, as a character list. -/
def jsonQuoteList (value : List Char) : List Char :=
  '"' :: (value.map jsonEscapeChar).flatten ++ ['"']

/-- JSON string literal of a `String`. -/
def jsonQuoteStr (s : String) : String :=
  String.mk (jsonQuoteList s.data)

mutual

/-- Compact JSON canonicalization of a value tree: the model of
`json.Marshal` applied to a decoded generic value. -/
def toJson : Jval → String
  | .null => "null"
  | .bool b => if b then "true" else "false"
  | .num n => toString n
  | .str s => jsonQuoteStr s
  | .arr l => "[" ++ toJsonArr l ++ "]"
  | .obj l => "\x7b" ++ toJsonObj l ++ "\x7d"

/-- Comma-separated serialization of array elements. -/
def toJsonArr : List Jval → String
  | [] => ""
  | [x] => toJson x
  | x :: y :: xs => toJson x ++ "," ++ toJsonArr (y :: xs)

/-- Comma-separated serialization of object fields. -/
def toJsonObj : List (String × Jval) → String
  | [] => ""
  | [(k, v)] => jsonQuoteStr k ++ ":" ++ toJson v
  | (k, v) :: y :: xs => jsonQuoteStr k ++ ":" ++ toJson v ++ "," ++ toJsonObj (y :: xs)

end

/-! ## `src/internal/util/jmes.go` -/

/-- Evaluation subject for one raw message (`jmes.go` lines 23-29): the JSON
decode of the raw text when it succeeds, and the wrapper object
`(message : raw)` when it fails.  `decode` is the external
`json.Unmarshal` capability. -/
def subjectFor (decode : String → Option Jval) (raw : String) : Jval :=
  match decode raw with
  | some decoded => decoded
  | none => .obj [("message", .str raw)]

/-- Array reduction step of `ExtractFirstValue` (`jmes.go` lines 39-49): a
slice/array result of length zero signals `continue`, a non-empty one is
replaced by its first element, which is then re-checked for emptiness;
non-array results pass through unchanged. -/
def reduceArray : Jval → Option Jval
  | .arr [] => none
  | .arr (x :: _) => if isEmptyVal x then none else some x
  | v => some v

/-- Model of the result-to-string switch of `ExtractFirstValue` (`jmes.go`
lines 50-66): a string result is used verbatim, with an empty string
signalling `continue`; any other value is marshalled to compact JSON text,
and a serialization of length zero or equal to `null`, `[]` or the empty
object also signals `continue`.  `none` means the scan continues with the
next message.  The `json.Marshal` error branch of the Go code is
unreachable in the model because `toJson` is total. -/
def stringifyResult : Jval → Option String
  | .str v => if v = "" then none else some v
  | v =>
    let b := toJson v
    if b = "" ∨ b = "null" ∨ b = "[]" ∨ b = "\x7b\x7d" then none else some b

/-- Model of `ExtractFirstValue` (`src/internal/util/jmes.go` lines 17-69).
Events are the optional message strings of the `FilteredLogEvent` slice (a
nil `Message` pointer is skipped).  `decode` is the external JSON decoder
and `eval` the external JMESPath capability; an evaluation error aborts the
whole call wrapped as `jmespath search failed: `. -/
def extractFirstValue (decode : String → Option Jval)
    (eval : String → Jval → Except String Jval) :
    List (Option String) → String → Except String (String × Bool)
  | [], _ => .ok ("", false)
  | none :: rest, jmes => extractFirstValue decode eval rest jmes
  | some raw :: rest, jmes =>
    match eval jmes (subjectFor decode raw) with
    | .error e => .error ("jmespath search failed: " ++ e)
    | .ok res =>
      if isEmptyVal res then extractFirstValue decode eval rest jmes
      else
        match reduceArray res with
        | none => extractFirstValue decode eval rest jmes
        | some res1 =>
          match stringifyResult res1 with
          | none => extractFirstValue decode eval rest jmes
          | some v => .ok (v, true)

/-- Model of `BuildNextFilter` (`src/internal/util/jmes.go` lines 74-91): the
expression is evaluated against the subject `(value : extracted)`; an
evaluation failure falls back to the literal expression with no error, a
string result is returned verbatim, and any other result is canonicalized
to compact JSON text.  The `json.Marshal` error branch of the Go code is
unreachable in the model because `toJson` is total. -/
def buildNextFilter (eval : String → Jval → Except String Jval)
    (jmes extracted : String) : Except String String :=
  match eval jmes (.obj [("value", .str extracted)]) with
  | .error _ => .ok jmes
  | .ok (.str v) => .ok v
  | .ok v => .ok (toJson v)

/-- Model of `strings.ReplaceAll`: scan left to right, replacing each
non-overlapping occurrence of `pat` and never rescanning the replacement
text.  The empty-pattern case never arises from `replacePlaceholder` (the
needle always has at least four characters); for an empty pattern this
model returns the input unchanged. -/
def replaceList (pat rep : List Char) : List Char → List Char
  | [] => []
  | c :: cs =>
    if pat ≠ [] ∧ pat.isPrefixOf (c :: cs) then
      rep ++ replaceList pat rep ((c :: cs).drop pat.length)
    else
      c :: replaceList pat rep cs
termination_by l => l.length
decreasing_by
  · rename_i h
    simp only [List.length_drop, List.length_cons]
    have hp : 1 ≤ pat.length := by
      cases pat with
      | nil => exact absurd rfl h.1
      | cons _ _ => simp
    omega
  · simp

/-- Substring occurrence test over character lists (the semantics of Go's
`strings.Contains`). -/
def hasOccur (pat : List Char) : List Char → Bool
  | [] => pat.isEmpty
  | c :: cs => pat.isPrefixOf (c :: cs) || hasOccur pat cs

/-- Placeholder token built by `ReplacePlaceholder` (`jmes.go` line 102): two
opening braces, the name, two closing braces. -/
def placeholderNeedle (name : List Char) : List Char :=
  '\x7b' :: '\x7b' :: (name ++ ['\x7d', '\x7d'])

/-- Model of `ReplacePlaceholder` (`src/internal/util/jmes.go` lines 95-104)
over character lists: an empty name returns the expression unchanged;
otherwise every occurrence of the needle is replaced by the JSON-quoted
literal of the value. -/
def replacePlaceholder (expr name value : List Char) : List Char :=
  if name = [] then expr
  else replaceList (placeholderNeedle name) (jsonQuoteList value) expr

/-! ## `src/internal/inspector/inspector.go` -/

/-- Model of `LogRecord`: one log entry matched across groups.  The Go
`time.Time` values are constructed from millisecond epochs
(`time.Unix(0, ms*1e6)`) and only compared with `Equal`/`Before`, so the
timestamp is modelled as the millisecond epoch integer. -/
@[ext] structure LogRecord where
  timestamp : Int
  logGroup : String
  logStream : String
  message : String
deriving DecidableEq

/-- Lexicographic order on character lists: the model of Go's byte-wise
string comparison `<` (UTF-8 byte order coincides with code-point order). -/
def charListLt : List Char → List Char → Bool
  | _, [] => false
  | [], _ :: _ => true
  | a :: as, b :: bs => if a < b then true else if b < a then false else charListLt as bs

/-- Go string comparison `a < b`. -/
def strLt (a b : String) : Bool := charListLt a.data b.data

/-- Model of the comparator closure passed to `sort.Slice` in `Search`
(`inspector.go` lines 118-129): ascending by timestamp, then log group,
then log stream, then message. -/
def recLess (a b : LogRecord) : Bool :=
  if a.timestamp = b.timestamp then
    if a.logGroup = b.logGroup then
      if a.logStream = b.logStream then strLt a.message b.message
      else strLt a.logStream b.logStream
    else strLt a.logGroup b.logGroup
  else decide (a.timestamp < b.timestamp)

/-- Non-strict version of the comparator: the order in which `sort.Slice`
leaves the slice (`a` may stay before `b` exactly when `b` is not strictly
less than `a`). -/
def recLe (a b : LogRecord) : Bool := !recLess b a

/-- Model of the `sort.Slice(allRecords, ...)` call in `Search`: because the
comparator is a strict total order in which incomparable records are equal
in all four fields, the sorted permutation is unique, so the (unstable) Go
sort and a merge sort produce the same slice. -/
def sortRecords (l : List LogRecord) : List LogRecord := l.mergeSort recLe

/-- Model of the filter-pattern quoting in `Search` (`inspector.go` lines
48-53): the pattern is wrapped in double quotes unless it already both
begins and ends with a double-quote character (byte length at least two).
On valid UTF-8 the byte-level test of the Go code coincides with this
character-level test, because the quote byte never occurs inside a
multi-byte encoding. -/
def quotePattern (fp : String) : String :=
  if 2 ≤ fp.length ∧ fp.data.head? = some '"' ∧ fp.data.getLast? = some '"' then fp
  else "\"" ++ fp ++ "\""

/-- Model of the collection loop of `Search` (`inspector.go` lines 92-116) as
a function of the order in which per-group outcomes are observed: the first
error observed makes the call return `(nil, err)` - results collected so
far are discarded and nothing further is kept; if every outcome is a record
batch, the concatenation is sorted and returned with no error.  The
post-loop drain of the error channel is covered by letting an error appear
at any position of the observation sequence. -/
def collectResults :
    List (Except String (List LogRecord)) → List LogRecord →
    List LogRecord × Option String
  | [], acc => (sortRecords acc, none)
  | Except.error e :: _, _ => ([], some e)
  | Except.ok b :: rest, acc => collectResults rest (acc ++ b)

/-- Outcome of a `Search` call together with the ghost log of the
`(group, filterPattern)` argument pairs handed to the per-group fetch
capability. -/
structure SearchResult where
  records : List LogRecord
  err : Option String
  calls : List (String × String)
deriving DecidableEq

/-- Model of `Inspector.Search` (`src/internal/inspector/inspector.go` lines
41-131).  `fetch` abstracts the per-group paged fetch (`searchGroup`): it
maps a group and the quoted filter pattern to that source's records or an
error, the same per-source results across runs.  `arrival` is the
nondeterministic order in which the worker pool delivers the per-group
outcomes to the collector; a run of the concurrent code corresponds to a
permutation of the configured groups.  Validation failures return before
any fetch is invoked. -/
def searchExec (fetch : String → String → Except String (List LogRecord))
    (groups : List String) (pattern : String) (arrival : List String) :
    SearchResult :=
  if groups.isEmpty then ⟨[], some "no log groups configured", []⟩
  else if pattern = "" then ⟨[], some "empty filter pattern", []⟩
  else
    let fp := quotePattern pattern
    let res := collectResults (arrival.map fun g => fetch g fp) []
    ⟨res.1, res.2, arrival.map fun g => (g, fp)⟩

/-- Record batch contributed by one per-group outcome (the batch itself for a
success, nothing for an error). -/
def exceptBatch : Except String (List LogRecord) → List LogRecord
  | .ok b => b
  | .error _ => []

/-- Records produced by one group's pagination under a given fetch capability
and filter pattern. -/
def fetchedBatch (fetch : String → String → Except String (List LogRecord))
    (fp : String) (g : String) : List LogRecord :=
  exceptBatch (fetch g fp)

/-- First error in a sequence of observed per-group outcomes. -/
def firstErrorOf (outs : List (Except String (List LogRecord))) : Option String :=
  outs.findSome? fun o =>
    match o with
    | .error e => some e
    | .ok _ => none

/-! ## Pagination (`searchGroup`, `inspector.go` lines 134-164) -/

/-- Model of one raw `FilteredLogEvent`: millisecond timestamp, stream name
and message, each an optional field as in the AWS SDK. -/
structure RawEvent where
  timestamp : Option Int
  logStreamName : Option String
  message : Option String
deriving DecidableEq

/-- Model of one `FilterLogEvents` response page: the events and the
continuation token. -/
structure PageOut where
  events : List RawEvent
  nextToken : Option String
deriving DecidableEq

/-- Conversion of a raw event into a `LogRecord` (`inspector.go` lines
149-157): missing fields become zero / the empty string via `aws.ToInt64` /
`aws.ToString`, and the group is copied verbatim. -/
def toRecord (group : String) (e : RawEvent) : LogRecord :=
  ⟨e.timestamp.getD 0, group, e.logStreamName.getD "", e.message.getD ""⟩

/-- Model of the loop-exit test of `searchGroup` (`inspector.go` line 158):
`out.NextToken == nil || (next != nil && aws.ToString(out.NextToken) ==
aws.ToString(next))`, with `next` the token used for the just-completed
call and `ret` the token the call returned. -/
def stopPaging (next ret : Option String) : Bool :=
  ret.isNone || (next.isSome && (ret.getD "" == next.getD ""))

/-- Model of the pagination loop of `searchGroup`, with fuel bounding the
number of calls still allowed: a first component of `none` means the loop
is still running after spending all fuel, `some` is the returned outcome.
Each iteration invokes the paged-query capability with the filter pattern
and the current token, appends the converted events, and exits when
`stopPaging` holds.  The second component is the ghost log of the filter
pattern passed to each issued `FilterLogEvents` call (`inspector.go` line
140 passes `filterPattern` verbatim on every page). -/
def searchGroupLoop (query : String → Option String → Except String PageOut)
    (group filterPattern : String) :
    Nat → Option String → List LogRecord →
    Option (Except String (List LogRecord)) × List String
  | 0, _, _ => (none, [])
  | Nat.succ fuel, next, records =>
    match query filterPattern next with
    | .error e => (some (.error e), [filterPattern])
    | .ok out =>
      let records2 := records ++ out.events.map (toRecord group)
      if stopPaging next out.nextToken then (some (.ok records2), [filterPattern])
      else
        let rest := searchGroupLoop query group filterPattern fuel out.nextToken records2
        (rest.1, filterPattern :: rest.2)

/-- Entry point of the pagination model: first call uses a nil token and an
empty accumulator. -/
def searchGroupRun (query : String → Option String → Except String PageOut)
    (group filterPattern : String) (fuel : Nat) :
    Option (Except String (List LogRecord)) × List String :=
  searchGroupLoop query group filterPattern fuel none []

/-- Stop rule exactly as the specification words it, for comparison with the
code's `stopPaging`: stop when the returned token is nil or empty, or when
it equals the token used for the just-completed call. -/
def claimStopPaging (next ret : Option String) : Bool :=
  ret.isNone || (ret == some "") || (next.isSome && (ret.getD "" == next.getD ""))

/-! ## Worker-count configuration -/

/-- Worker-count clamping performed by `main` before `Inspector.SetWorkers`
(`src/unnamed/part_001`, second-search `main.go`, lines 285-293): the
caller-supplied concurrency, raised to one when non-positive, then capped
at the number of groups. -/
def configuredWorkers (concurrency : Int) (numGroups : Nat) : Int :=
  let w := if concurrency ≤ 0 then 1 else concurrency
  if w > (numGroups : Int) then (numGroups : Int) else w

/-- Modelled from the spec: the `Inspector.SetWorkers` method and the sized
worker pool it configures are absent from `src` (only the `main` caller and
the README document them); per the specification the pool dispatches the
source queue over exactly the configured number of parallel workers, so the
effective number of workers processing the source queue equals the
configured value. -/
def effectiveWorkers (concurrency : Int) (numGroups : Nat) : Int :=
  configuredWorkers concurrency numGroups

/-! ## Specification-side definitions -/

/-- Normalization of a non-empty result to a string as the specification
words step 5 of the ValueExtractor algorithm: a string result is used
verbatim, with an empty string treated as empty; any other type is
canonicalized to compact JSON text, and canonicalizations that serialize to
`null`, `[]` or an empty object are treated as empty. -/
def specToText : Jval → Option String
  | .str v => if v = "" then none else some v
  | v =>
    let b := toJson v
    if b = "" ∨ b = "null" ∨ b = "[]" ∨ b = "\x7b\x7d" then none else some b

/-- Per-message result of the ValueExtractor algorithm as the specification
words steps 1-6: decode the message (falling back to the text wrapper),
evaluate the query expression, skip empty results, reduce an array to its
first element re-checking emptiness, and normalize to a string; `none`
means the scan continues with the next message. -/
def specNormalize (decode : String → Option Jval)
    (eval : String → Jval → Except String Jval) (jmes raw : String) :
    Option String :=
  match eval jmes (subjectFor decode raw) with
  | .error _ => none
  | .ok res =>
    if isEmptyVal res then none
    else
      match res with
      | .arr l =>
        match l.head? with
        | none => none
        | some x => if isEmptyVal x then none else specToText x
      | _ => specToText res

/-! ## Concrete capabilities used to evaluate the models on sample inputs -/

/-- Concrete per-group fetch with the record batches of the repository's own
inspector test (`TestInspectorSearch`, case `quotes filter and aggregates
sorted`). -/
def demoFetch : String → String → Except String (List LogRecord) :=
  fun g _ =>
    if g = "/g1" then
      .ok [⟨1000, "/g1", "s2", "b"⟩, ⟨3000, "/g1", "s1", "z"⟩, ⟨3000, "/g1", "s1", "a"⟩]
    else .ok [⟨2000, "/g2", "s1", "m"⟩]

/-- Concrete per-group fetch in which one group fails and the other has
already produced a record. -/
def demoFetchErr : String → String → Except String (List LogRecord) :=
  fun g _ =>
    if g = "/g1" then .error "boom"
    else .ok [⟨2000, "/g2", "s1", "m"⟩]

/-- Concrete JSON decoder knowing the single document of the extraction
example. -/
def demoDecode : String → Option Jval :=
  fun s =>
    if s = "\x7b\"ids\":[\"a\",\"b\"]\x7d" then
      some (.obj [("ids", .arr [.str "a", .str "b"])])
    else none

/-- Concrete total evaluator for the field lookup `ids`; it never fails, so
it stands for a well-formed query expression. -/
def demoEval : String → Jval → Except String Jval :=
  fun _ v =>
    .ok (match v with
      | .obj l => ((l.find? fun p => p.1 == "ids").map Prod.snd).getD .null
      | _ => .null)

/-- Concrete JSON decoder that always fails, wrapping every message as text. -/
def demoDecodeNone : String → Option Jval := fun _ => none

/-- Concrete evaluator that always fails, standing for a malformed query
expression. -/
def demoFailEval : String → Jval → Except String Jval :=
  fun _ _ => .error "boom"

/-- Concrete evaluator that always fails, standing for a syntactically
invalid next-filter expression. -/
def demoLiteralEval : String → Jval → Except String Jval :=
  fun _ _ => .error "SyntaxError"

/-! ## Order-theoretic facts about the sort comparator -/

/-- Agreement of the executable character-list comparison with the
propositional lexicographic order on lists. -/
theorem charListLt_iff : ∀ (a b : List Char), charListLt a b = true ↔ a < b
  | [], [] => by
    constructor
    · intro h
      exact Bool.noConfusion ((show charListLt [] [] = false from rfl) ▸ h)
    · intro h; cases h
  | [], b :: bs => by
    constructor
    · intro _; exact List.Lex.nil
    · intro _; rfl
  | a :: as, [] => by
    constructor
    · intro h
      exact Bool.noConfusion ((show charListLt (a :: as) [] = false from rfl) ▸ h)
    · intro h; cases h
  | a :: as, b :: bs => by
    simp only [charListLt]
    by_cases hab : a < b
    · simp only [if_pos hab]
      constructor
      · intro _; exact List.Lex.rel hab
      · intro _; trivial
    · by_cases hba : b < a
      · simp only [if_neg hab, if_pos hba]
        constructor
        · intro h; exact Bool.noConfusion h
        · intro h
          cases h with
          | cons h3 => exact absurd hba (lt_irrefl a)
          | rel hh => exact absurd hh hab
      · have heq : a = b := le_antisymm (not_lt.mp hba) (not_lt.mp hab)
        subst heq
        simp only [if_neg hab, if_neg hba]
        rw [charListLt_iff as bs]
        constructor
        · intro h; exact List.Lex.cons h
        · intro h
          cases h with
          | cons h3 => exact h3
          | rel hh => exact absurd hh (lt_irrefl a)

/-- Agreement of the executable string comparison with the linear order on
`String`. -/
theorem strLt_iff (a b : String) : strLt a b = true ↔ a < b := by
  rw [String.lt_iff_toList_lt]
  exact charListLt_iff a.data b.data

/-- Composite sort key of a record: the lexicographic quadruple the `Search`
comparator orders by. -/
def recKey (r : LogRecord) : Lex (Int × Lex (String × Lex (String × String))) :=
  toLex (r.timestamp, toLex (r.logGroup, toLex (r.logStream, r.message)))

/-- The `sort.Slice` comparator is exactly the strict lexicographic order of
the composite keys. -/
theorem recLess_iff (a b : LogRecord) : recLess a b = true ↔ recKey a < recKey b := by
  unfold recLess recKey
  simp only [Prod.Lex.lt_iff]
  by_cases h1 : a.timestamp = b.timestamp
  · by_cases h2 : a.logGroup = b.logGroup
    · by_cases h3 : a.logStream = b.logStream
      · simp [h1, h2, h3, strLt_iff]
      · simp [h1, h2, h3, strLt_iff]
    · simp [h1, h2, strLt_iff]
  · simp [h1]

/-- The post-sort relation is the non-strict lexicographic order of the
composite keys. -/
theorem recLe_iff_le (a b : LogRecord) : recLe a b = true ↔ recKey a ≤ recKey b := by
  rw [recLe, Bool.not_eq_true', ← Bool.not_eq_true, recLess_iff, not_lt]

/-- Equal composite keys force equal records. -/
theorem recKey_inj (a b : LogRecord) (h : recKey a = recKey b) : a = b := by
  unfold recKey at h
  have h1 : (a.timestamp, toLex (a.logGroup, toLex (a.logStream, a.message)))
      = (b.timestamp, toLex (b.logGroup, toLex (b.logStream, b.message))) := h
  rw [Prod.mk.injEq] at h1
  have h2 : (a.logGroup, toLex (a.logStream, a.message))
      = (b.logGroup, toLex (b.logStream, b.message)) := h1.2
  rw [Prod.mk.injEq] at h2
  have h3 : (a.logStream, a.message) = (b.logStream, b.message) := h2.2
  rw [Prod.mk.injEq] at h3
  cases a
  cases b
  simp only [LogRecord.mk.injEq]
  exact ⟨h1.1, h2.1, h3.1, h3.2⟩

/-- Transitivity of the post-sort relation. -/
theorem recLe_trans (a b c : LogRecord) (hab : recLe a b = true)
    (hbc : recLe b c = true) : recLe a c = true :=
  (recLe_iff_le a c).mpr
    (le_trans ((recLe_iff_le a b).mp hab) ((recLe_iff_le b c).mp hbc))

/-- Totality of the post-sort relation. -/
theorem recLe_total (a b : LogRecord) : (recLe a b || recLe b a) = true := by
  rcases le_total (recKey a) (recKey b) with h | h
  · rw [(recLe_iff_le a b).mpr h]; rfl
  · rw [(recLe_iff_le b a).mpr h, Bool.or_true]

/-- Antisymmetry of the post-sort relation. -/
theorem recLe_antisymm (a b : LogRecord) (hab : recLe a b = true)
    (hba : recLe b a = true) : a = b :=
  recKey_inj a b (le_antisymm ((recLe_iff_le a b).mp hab) ((recLe_iff_le b a).mp hba))

/-! ## Collection-loop lemmas -/

/-- When every observed outcome is a record batch, the collection loop
returns the sorted concatenation and no error. -/
theorem collectResults_all_ok (outs : List (Except String (List LogRecord)))
    (h : ∀ o ∈ outs, ∃ b, o = .ok b) (acc : List LogRecord) :
    collectResults outs acc
      = (sortRecords (acc ++ (outs.map exceptBatch).flatten), none) := by
  induction outs generalizing acc with
  | nil => simp [collectResults]
  | cons o rest ih =>
    have hrest : ∀ x ∈ rest, ∃ b, x = .ok b :=
      fun x hx => h x (List.mem_cons_of_mem o hx)
    obtain ⟨b, rfl⟩ := h o (List.mem_cons_self o rest)
    simp only [collectResults, List.map_cons, List.flatten_cons, exceptBatch]
    rw [ih hrest (acc ++ b)]
    simp [List.append_assoc]

/-- When the collection loop reports no error, every observed outcome was a
record batch. -/
theorem collectResults_err_none (outs : List (Except String (List LogRecord)))
    (acc : List LogRecord) (h : (collectResults outs acc).2 = none) :
    ∀ o ∈ outs, ∃ b, o = .ok b := by
  induction outs generalizing acc with
  | nil => intro o ho; cases ho
  | cons o rest ih =>
    intro x hx
    cases o with
    | error e => simp [collectResults] at h
    | ok b =>
      rcases List.mem_cons.mp hx with rfl | hx2
      · exact ⟨b, rfl⟩
      · exact ih (acc ++ b) (by simpa [collectResults] using h) x hx2

/-- When the observed outcomes contain an error, the collection loop discards
all records and returns the first error observed. -/
theorem collectResults_first_error (outs : List (Except String (List LogRecord)))
    (acc : List LogRecord) (e : String) (h : firstErrorOf outs = some e) :
    collectResults outs acc = ([], some e) := by
  induction outs generalizing acc with
  | nil => simp [firstErrorOf] at h
  | cons o rest ih =>
    cases o with
    | error e2 =>
      simp only [firstErrorOf, List.findSome?_cons, Option.some.injEq] at h
      simp [collectResults, h]
    | ok b =>
      simp only [firstErrorOf, List.findSome?_cons] at h
      exact ih (acc ++ b) (by simpa [firstErrorOf] using h)

/-- C1: every error-free `Search` returns the record slice sorted ascending
by the composite key (timestamp, log group, log stream, message), the slice
is a permutation of the union of all sources' batches (nothing dropped, no
duplicate elimination), and the slice is identical for every collection
order of the same per-source results. -/
theorem search_sorted_complete_deterministic
    (fetch : String → String → Except String (List LogRecord))
    (groups : List String) (pattern : String) (arrival : List String)
    (hperm : arrival.Perm groups)
    (hok : (searchExec fetch groups pattern arrival).err = none) :
    ((searchExec fetch groups pattern arrival).records).Pairwise
        (fun a b => recLe a b = true) ∧
    ((searchExec fetch groups pattern arrival).records).Perm
        ((groups.map (fetchedBatch fetch (quotePattern pattern))).flatten) ∧
    (∀ arrival2, arrival2.Perm groups →
      (searchExec fetch groups pattern arrival2).records
        = (searchExec fetch groups pattern arrival).records) := by
  by_cases hgroups : groups.isEmpty
  · simp [searchExec, hgroups] at hok
  by_cases hpat : pattern = ""
  · simp [searchExec, hgroups, hpat] at hok
  have hall : ∀ g ∈ groups, ∃ b, fetch g (quotePattern pattern) = .ok b := by
    have herr : (collectResults
        (arrival.map fun g => fetch g (quotePattern pattern)) []).2 = none := by
      simpa [searchExec, hgroups, hpat] using hok
    intro g hg
    have hmem : fetch g (quotePattern pattern)
        ∈ arrival.map fun g => fetch g (quotePattern pattern) :=
      List.mem_map_of_mem _ (hperm.mem_iff.mpr hg)
    exact collectResults_err_none _ _ herr _ hmem
  have hrun : ∀ arr : List String, arr.Perm groups →
      (searchExec fetch groups pattern arr).records
        = sortRecords ((arr.map (fetchedBatch fetch (quotePattern pattern))).flatten) := by
    intro arr harr
    have hok2 : ∀ o ∈ arr.map fun g => fetch g (quotePattern pattern), ∃ b, o = .ok b := by
      intro o ho
      obtain ⟨g, hg, rfl⟩ := List.mem_map.mp ho
      exact hall g (harr.mem_iff.mp hg)
    simp only [searchExec, hgroups, hpat, if_neg, if_false, Bool.false_eq_true]
    rw [collectResults_all_ok _ hok2 []]
    simp only [List.nil_append, List.map_map]
    rfl
  have hperm_flat : ∀ arr : List String, arr.Perm groups →
      ((arr.map (fetchedBatch fetch (quotePattern pattern))).flatten).Perm
        ((groups.map (fetchedBatch fetch (quotePattern pattern))).flatten) :=
    fun arr harr => (harr.map _).flatten
  have hsorted : ∀ l : List LogRecord,
      (sortRecords l).Pairwise (fun a b => recLe a b = true) :=
    fun l => List.sorted_mergeSort
      (fun a b c hab hbc => recLe_trans a b c hab hbc)
      (fun a b => recLe_total a b) l
  refine ⟨?_, ?_, ?_⟩
  · rw [hrun arrival hperm]
    exact hsorted _
  · rw [hrun arrival hperm]
    exact (List.mergeSort_perm _ _).trans (hperm_flat arrival hperm)
  · intro arrival2 harr2
    rw [hrun arrival hperm, hrun arrival2 harr2]
    have inst : IsAntisymm LogRecord (fun a b => recLe a b = true) :=
      ⟨fun a b h1 h2 => recLe_antisymm a b h1 h2⟩
    exact @List.eq_of_perm_of_sorted LogRecord (fun a b => recLe a b = true) inst _ _
      (((List.mergeSort_perm _ _).trans (hperm_flat arrival2 harr2)).trans
        ((hperm_flat arrival hperm).symm.trans (List.mergeSort_perm _ _).symm))
      (hsorted _) (hsorted _)

/-- C1 witness: the claim evaluated with the record batches of the
repository's own inspector test, collected in reversed group order. -/
theorem search_sorted_complete_deterministic_witness :
    ((searchExec demoFetch ["/g1", "/g2"] "hello" ["/g2", "/g1"]).records).Pairwise
        (fun a b => recLe a b = true) ∧
    ((searchExec demoFetch ["/g1", "/g2"] "hello" ["/g2", "/g1"]).records).Perm
        ((["/g1", "/g2"].map (fetchedBatch demoFetch (quotePattern "hello"))).flatten) ∧
    (∀ arrival2, arrival2.Perm ["/g1", "/g2"] →
      (searchExec demoFetch ["/g1", "/g2"] "hello" arrival2).records
        = (searchExec demoFetch ["/g1", "/g2"] "hello" ["/g2", "/g1"]).records) :=
  search_sorted_complete_deterministic demoFetch ["/g1", "/g2"] "hello"
    ["/g2", "/g1"] (List.Perm.swap "/g1" "/g2" []) rfl

/-- C2: when any source's paged query fails, `Search` returns the first
error observed and an empty (nil) record slice - no partial results
accompany the error even if other sources already produced records. -/
theorem search_error_no_partial_results
    (fetch : String → String → Except String (List LogRecord))
    (groups : List String) (pattern : String) (arrival : List String)
    (hgroups : groups ≠ []) (hpat : pattern ≠ "")
    (hperm : arrival.Perm groups)
    (herr : ∃ g ∈ groups, ∃ e, fetch g (quotePattern pattern) = .error e) :
    (searchExec fetch groups pattern arrival).records = [] ∧
    (searchExec fetch groups pattern arrival).err
      = firstErrorOf (arrival.map fun g => fetch g (quotePattern pattern)) ∧
    ∃ e, (searchExec fetch groups pattern arrival).err = some e := by
  obtain ⟨g, hg, e, he⟩ := herr
  have h1 : groups.isEmpty = false := by
    cases groups with
    | nil => exact absurd rfl hgroups
    | cons _ _ => rfl
  have hmem : Except.error e ∈ arrival.map fun g => fetch g (quotePattern pattern) := by
    rw [← he]
    exact List.mem_map_of_mem _ (hperm.mem_iff.mpr hg)
  obtain ⟨e2, he2⟩ : ∃ e2,
      firstErrorOf (arrival.map fun g => fetch g (quotePattern pattern)) = some e2 := by
    cases hcase : firstErrorOf (arrival.map fun g => fetch g (quotePattern pattern)) with
    | some e2 => exact ⟨e2, rfl⟩
    | none =>
      have hnone := List.findSome?_eq_none_iff.mp hcase _ hmem
      simp at hnone
  have hrun : searchExec fetch groups pattern arrival
      = ⟨[], some e2, arrival.map fun g => (g, quotePattern pattern)⟩ := by
    simp only [searchExec, h1, Bool.false_eq_true, if_false, if_neg hpat]
    rw [collectResults_first_error _ [] e2 he2]
  refine ⟨by rw [hrun], ?_, ⟨e2, by rw [hrun]⟩⟩
  rw [hrun, he2]

/-- C2 witness: a two-group search in which one group already produced a
record and the other fails; the collection order sees the successful batch
first. -/
theorem search_error_no_partial_results_witness :
    (searchExec demoFetchErr ["/g1", "/g2"] "x" ["/g2", "/g1"]).records = [] ∧
    (searchExec demoFetchErr ["/g1", "/g2"] "x" ["/g2", "/g1"]).err
      = firstErrorOf (["/g2", "/g1"].map fun g => demoFetchErr g (quotePattern "x")) ∧
    ∃ e, (searchExec demoFetchErr ["/g1", "/g2"] "x" ["/g2", "/g1"]).err = some e :=
  search_error_no_partial_results demoFetchErr ["/g1", "/g2"] "x" ["/g2", "/g1"]
    (by decide) (by decide) (List.Perm.swap "/g1" "/g2" [])
    ⟨"/g1", by decide, "boom", rfl⟩

/-- C9: an empty source list or an empty filter expression makes `Search`
fail with a validation error, return no records, and never invoke the
paged-query capability (the call log is empty and the outcome does not
depend on the capability at all). -/
theorem search_validates_inputs
    (fetch : String → String → Except String (List LogRecord))
    (groups : List String) (pattern : String) (arrival : List String)
    (h : groups = [] ∨ pattern = "") :
    (searchExec fetch groups pattern arrival).records = [] ∧
    (∃ e, (searchExec fetch groups pattern arrival).err = some e) ∧
    (searchExec fetch groups pattern arrival).calls = [] ∧
    ∀ fetch2, searchExec fetch2 groups pattern arrival
      = searchExec fetch groups pattern arrival := by
  rcases h with h | h
  · subst h
    simp [searchExec]
  · subst h
    by_cases hg : groups.isEmpty <;> simp [searchExec, hg]

/-- C9 witness: both validation failures evaluated concretely. -/
theorem search_validates_inputs_witness :
    ((searchExec demoFetch [] "x" []).records = [] ∧
      (∃ e, (searchExec demoFetch [] "x" []).err = some e) ∧
      (searchExec demoFetch [] "x" []).calls = [] ∧
      ∀ fetch2, searchExec fetch2 [] "x" [] = searchExec demoFetch [] "x" []) ∧
    ((searchExec demoFetch ["g"] "" ["g"]).records = [] ∧
      (∃ e, (searchExec demoFetch ["g"] "" ["g"]).err = some e) ∧
      (searchExec demoFetch ["g"] "" ["g"]).calls = [] ∧
      ∀ fetch2, searchExec fetch2 ["g"] "" ["g"] = searchExec demoFetch ["g"] "" ["g"]) :=
  ⟨search_validates_inputs demoFetch [] "x" [] (Or.inl rfl),
    search_validates_inputs demoFetch ["g"] "" ["g"] (Or.inr rfl)⟩

/-- Every page call issued by a pagination run passes the filter pattern it
was started with. -/
theorem searchGroupLoop_log (query : String → Option String → Except String PageOut)
    (group fp : String) :
    ∀ (fuel : Nat) (next : Option String) (acc : List LogRecord),
      ∀ p ∈ (searchGroupLoop query group fp fuel next acc).2, p = fp := by
  intro fuel
  induction fuel with
  | zero =>
    intro next acc p hp
    simp [searchGroupLoop] at hp
  | succ fuel ih =>
    intro next acc p hp
    simp only [searchGroupLoop] at hp
    cases hq : query fp next with
    | error e =>
      rw [hq] at hp
      simpa using hp
    | ok out =>
      rw [hq] at hp
      by_cases hstop : stopPaging next out.nextToken
      · simp [hstop] at hp
        exact hp
      · simp [hstop] at hp
        rcases hp with rfl | hp2
        · rfl
        · exact ih out.nextToken _ p hp2

/-- C10: every filter string handed to the backend is the caller's pattern
wrapped in double quotes unless the pattern already both begins and ends
with a double quote, in which case it is passed unchanged; an unquoted
pattern is never forwarded raw. -/
theorem search_passes_quoted_pattern
    (fetch : String → String → Except String (List LogRecord))
    (groups : List String) (pattern : String) (arrival : List String)
    (hpat : pattern ≠ "") :
    (∀ c ∈ (searchExec fetch groups pattern arrival).calls,
        c.2 = quotePattern pattern) ∧
    (∀ (query : String → Option String → Except String PageOut)
        (g : String) (fuel : Nat),
      ∀ p ∈ (searchGroupRun query g (quotePattern pattern) fuel).2,
        p = quotePattern pattern) ∧
    ((2 ≤ pattern.length ∧ pattern.data.head? = some '"' ∧
        pattern.data.getLast? = some '"') → quotePattern pattern = pattern) ∧
    (¬(2 ≤ pattern.length ∧ pattern.data.head? = some '"' ∧
        pattern.data.getLast? = some '"') →
      quotePattern pattern = "\"" ++ pattern ++ "\"" ∧
      quotePattern pattern ≠ pattern) := by
  refine ⟨?_, fun query g fuel => searchGroupLoop_log query g _ fuel none [], ?_, ?_⟩
  · intro c hc
    by_cases hg : groups.isEmpty
    · simp [searchExec, hg] at hc
    · simp only [searchExec, hg, Bool.false_eq_true, if_false, if_neg hpat] at hc
      obtain ⟨g, hgmem, rfl⟩ := List.mem_map.mp hc
      rfl
  · intro hq
    simp [quotePattern, hq]
  · intro hq
    refine ⟨by simp [quotePattern, hq], ?_⟩
    rw [quotePattern, if_neg hq]
    intro hcontra
    have hlen := congrArg String.length hcontra
    rw [String.length_append, String.length_append] at hlen
    have hone : ("\"" : String).length = 1 := rfl
    rw [hone] at hlen
    omega

/-- C10 witness: the unquoted pattern `hello` is wrapped and never forwarded
raw. -/
theorem search_passes_quoted_pattern_witness :
    (∀ c ∈ (searchExec demoFetch ["/g1"] "hello" ["/g1"]).calls,
        c.2 = quotePattern "hello") ∧
    quotePattern "hello" = "\"hello\"" ∧
    quotePattern "hello" ≠ "hello" := by
  have h := search_passes_quoted_pattern demoFetch ["/g1"] "hello" ["/g1"] (by decide)
  have hnq := h.2.2.2 (by decide)
  exact ⟨h.1, hnq.1, hnq.2⟩

/-- C3: the effective worker count configured for the source queue equals
`max(1, min(concurrency, len(sources)))` for every caller-supplied
concurrency and non-empty source list. -/
theorem effectiveWorkers_eq_spec (concurrency : Int) (numGroups : Nat)
    (h : 1 ≤ numGroups) :
    effectiveWorkers concurrency numGroups
      = max 1 (min concurrency (numGroups : Int)) := by
  simp only [effectiveWorkers, configuredWorkers]
  split_ifs <;> omega

/-- C3 witness: four requested workers over two sources give two effective
workers. -/
theorem effectiveWorkers_eq_spec_witness :
    effectiveWorkers 4 2 = max 1 (min 4 2) ∧ effectiveWorkers 4 2 = 2 :=
  ⟨effectiveWorkers_eq_spec 4 2 (by decide), by decide⟩

/-- C4 (amended): pagination stops exactly when the returned token is nil or
when it equals the token used for the just-completed call (an empty-string
token is treated like any other token value), and against a backend that
returns the same token on consecutive calls the loop terminates within two
calls. -/
theorem pagination_stop_rule_and_bounded (group : String) :
    (∀ next ret, stopPaging next ret = true ↔
        (ret = none ∨ ∃ p, next = some p ∧ ret = some p)) ∧
    (∀ (query : String → Option String → Except String PageOut) (fp t : String),
        (∀ tok, ∃ evs, query fp tok = .ok ⟨evs, some t⟩) →
        ∃ recs, (searchGroupRun query group fp 2).1 = some (.ok recs)) := by
  constructor
  · intro next ret
    cases ret with
    | none => simp [stopPaging]
    | some r =>
      cases next with
      | none => simp [stopPaging]
      | some p =>
        simp only [stopPaging, Option.isNone_some, Option.isSome_some,
          Option.getD_some, Bool.false_or, Bool.true_and, beq_iff_eq]
        constructor
        · intro hrp
          exact Or.inr ⟨p, rfl, by rw [hrp]⟩
        · rintro (hcontra | ⟨p2, hp2, hr2⟩)
          · exact Option.noConfusion hcontra
          · rw [Option.some.injEq] at hp2 hr2
            rw [hr2, hp2]
  · intro query fp t hq
    obtain ⟨evs1, h1⟩ := hq none
    obtain ⟨evs2, h2⟩ := hq (some t)
    refine ⟨[] ++ evs1.map (toRecord group) ++ evs2.map (toRecord group), ?_⟩
    simp [searchGroupRun, searchGroupLoop, h1, h2, stopPaging]

/-- C4 witness: a backend that always answers with the same token `tok`
makes pagination finish within two calls. -/
theorem pagination_stop_rule_and_bounded_witness :
    ∃ recs, (searchGroupRun (fun _ _ => .ok ⟨[], some "tok"⟩) "g" "\"x\"" 2).1
      = some (.ok recs) :=
  (pagination_stop_rule_and_bounded "g").2 (fun _ _ => .ok ⟨[], some "tok"⟩)
    "\"x\"" "tok" (fun _ => ⟨[], rfl⟩)

/-- C4 counterexample: at a nil previous token and a returned non-nil empty
token the claimed stop rule halts, but the code's guard does not - the loop
issues a second call (still running after one call of fuel) and only stops
once the empty token repeats. -/
theorem pagination_empty_token_counterexample :
    claimStopPaging none (some "") = true ∧
    stopPaging none (some "") = false ∧
    (searchGroupLoop (fun _ _ => .ok ⟨[], some ""⟩) "g" "\"x\"" 1 none []).1 = none ∧
    (searchGroupLoop (fun _ _ => .ok ⟨[], some ""⟩) "g" "\"x\"" 2 none []).1
      = some (.ok []) :=
  ⟨rfl, rfl, rfl, rfl⟩

/-! ## Extraction lemmas -/

/-- The specification's normalization of a non-empty result coincides with
the code's result-to-string switch. -/
theorem specToText_eq_stringify (x : Jval) : specToText x = stringifyResult x := by
  cases x <;> rfl

/-- On a message whose evaluation returns `r`, the specification's
per-message normalization is the emptiness check followed by the array
reduction and the result-to-string switch of the code. -/
theorem specNormalize_eq (decode : String → Option Jval)
    (eval : String → Jval → Except String Jval) (jmes raw : String) (r : Jval)
    (hr : eval jmes (subjectFor decode raw) = .ok r) :
    specNormalize decode eval jmes raw
      = if isEmptyVal r then none
        else
          match reduceArray r with
          | none => none
          | some res1 => stringifyResult res1 := by
  simp only [specNormalize, hr]
  cases hemp : isEmptyVal r
  · simp only [hemp, Bool.false_eq_true, if_false]
    cases r with
    | arr l =>
      cases l with
      | nil => rfl
      | cons x xs =>
        simp only [reduceArray, List.head?_cons]
        cases hex : isEmptyVal x
        · simp only [hex, Bool.false_eq_true, if_false]
          exact specToText_eq_stringify x
        · simp only [hex, if_true]
    | null => exact specToText_eq_stringify _
    | bool b => exact specToText_eq_stringify _
    | num n => exact specToText_eq_stringify _
    | str s => exact specToText_eq_stringify _
    | obj l => exact specToText_eq_stringify _
  · simp only [hemp, if_true]

/-- C5: for a well-formed query expression, `ExtractFirst` scans the
messages in order and returns exactly the first non-empty normalized value
with `found = true`; when every message is exhausted without one, it
returns `found = false` with no error. -/
theorem extractFirst_in_order
    (decode : String → Option Jval) (eval : String → Jval → Except String Jval)
    (jmes : String) (hwf : ∀ v, ∃ r, eval jmes v = .ok r) (msgs : List String) :
    extractFirstValue decode eval (msgs.map some) jmes
      = .ok (match msgs.findSome? (specNormalize decode eval jmes) with
             | some v => (v, true)
             | none => ("", false)) := by
  induction msgs with
  | nil => rfl
  | cons m ms ih =>
    obtain ⟨r, hr⟩ := hwf (subjectFor decode m)
    rw [List.map_cons, List.findSome?_cons, specNormalize_eq decode eval jmes m r hr]
    simp only [extractFirstValue, hr]
    cases hemp : isEmptyVal r
    · simp only [hemp, Bool.false_eq_true, if_false]
      cases hred : reduceArray r with
      | none => exact ih
      | some res1 =>
        cases hstr : stringifyResult res1 with
        | none =>
          simp only [hstr]
          exact ih
        | some v =>
          simp only [hstr]
    · simp only [hemp, if_true]
      exact ih

/-- C5 witness: `ExtractFirst` over the single message
`(ids : [a, b])` with expression `ids` yields `(a, true)` - the array
result reduces to its first element. -/
theorem extractFirst_in_order_witness :
    extractFirstValue demoDecode demoEval
      [some "\x7b\"ids\":[\"a\",\"b\"]\x7d"] "ids" = .ok ("a", true) := by
  have h := extractFirst_in_order demoDecode demoEval "ids"
    (fun v => ⟨_, rfl⟩) ["\x7b\"ids\":[\"a\",\"b\"]\x7d"]
  exact h.trans rfl

/-- C6: a malformed query expression (one whose evaluation fails on every
subject) makes `ExtractFirst` fail immediately with the evaluation error of
the first message it evaluates; the expression is not retried against later
messages and no found result is produced. -/
theorem extract_malformed_fails_first
    (decode : String → Option Jval) (eval : String → Jval → Except String Jval)
    (jmes : String) (hmal : ∀ v, ∃ e, eval jmes v = .error e)
    (events : List (Option String)) (raw : String)
    (hfirst : events.findSome? (fun m => m) = some raw) :
    ∃ e, eval jmes (subjectFor decode raw) = .error e ∧
      extractFirstValue decode eval events jmes
        = .error ("jmespath search failed: " ++ e) := by
  induction events with
  | nil => simp [List.findSome?] at hfirst
  | cons o rest ih =>
    cases o with
    | none =>
      rw [List.findSome?_cons] at hfirst
      obtain ⟨e, h1, h2⟩ := ih hfirst
      exact ⟨e, h1, h2⟩
    | some m =>
      rw [List.findSome?_cons] at hfirst
      have hm : m = raw := Option.some.injEq m raw ▸ hfirst
      subst hm
      obtain ⟨e, he⟩ := hmal (subjectFor decode m)
      exact ⟨e, he, by simp [extractFirstValue, he]⟩

/-- C6 witness: the failing expression aborts on the very first message with
the wrapped evaluation error. -/
theorem extract_malformed_fails_first_witness :
    ∃ e, demoFailEval "user.[" (subjectFor demoDecodeNone "x") = .error e ∧
      extractFirstValue demoDecodeNone demoFailEval [some "x"] "user.["
        = .error ("jmespath search failed: " ++ e) :=
  extract_malformed_fails_first demoDecodeNone demoFailEval "user.["
    (fun _ => ⟨"boom", rfl⟩) [some "x"] "x" rfl

/-- C7: `BuildFilter` swallows every evaluation failure and returns the
expression unchanged with no error; a successful string result is returned
verbatim, and any other successful result is canonicalized to compact JSON
text. -/
theorem buildNextFilter_spec
    (eval : String → Jval → Except String Jval) (jmes extracted : String) :
    (∀ e, eval jmes (.obj [("value", .str extracted)]) = .error e →
      buildNextFilter eval jmes extracted = .ok jmes) ∧
    (∀ s, eval jmes (.obj [("value", .str extracted)]) = .ok (.str s) →
      buildNextFilter eval jmes extracted = .ok s) ∧
    (∀ v, eval jmes (.obj [("value", .str extracted)]) = .ok v →
      (∀ s, v ≠ .str s) → buildNextFilter eval jmes extracted = .ok (toJson v)) := by
  refine ⟨?_, ?_, ?_⟩
  · intro e he
    simp [buildNextFilter, he]
  · intro s hs
    simp [buildNextFilter, hs]
  · intro v hv hns
    cases v with
    | str s => exact absurd rfl (hns s)
    | null => simp [buildNextFilter, hv]
    | bool b => simp [buildNextFilter, hv]
    | num n => simp [buildNextFilter, hv]
    | arr l => simp [buildNextFilter, hv]
    | obj l => simp [buildNextFilter, hv]

/-- C7 witness: the invalid expression `user.[` falls back to itself as a
literal filter with no error. -/
theorem buildNextFilter_spec_witness :
    buildNextFilter demoLiteralEval "user.[" "abc" = .ok "user.[" :=
  (buildNextFilter_spec demoLiteralEval "user.[" "abc").1 "SyntaxError" rfl

/-! ## Replacement lemmas -/

/-- Scanning a string that starts with the pattern replaces that occurrence
and continues after it. -/
theorem replaceList_append (pat rep : List Char) (l : List Char) (hp : pat ≠ []) :
    replaceList pat rep (pat ++ l) = rep ++ replaceList pat rep l := by
  cases pat with
  | nil => exact absurd rfl hp
  | cons p ps =>
    have hpre : (p :: ps).isPrefixOf ((p :: ps) ++ l) = true :=
      List.isPrefixOf_iff_prefix.mpr (List.prefix_append _ _)
    rw [List.cons_append, replaceList, if_pos ⟨by simp, by simp [hpre]⟩]
    congr 1
    rw [← List.cons_append, List.drop_left]

/-- Scanning a string whose head does not start an occurrence keeps the head
and continues with the tail. -/
theorem replaceList_cons_neg (pat rep : List Char) (c : Char) (l : List Char)
    (h : pat.isPrefixOf (c :: l) = false) :
    replaceList pat rep (c :: l) = c :: replaceList pat rep l := by
  rw [replaceList, if_neg]
  intro hcon
  exact absurd hcon.2 (by simp [h])

/-- A string with no occurrence of the pattern is returned unchanged. -/
theorem replaceList_no_occur (pat rep : List Char) :
    ∀ l, hasOccur pat l = false → replaceList pat rep l = l := by
  intro l
  induction l with
  | nil =>
    intro _
    rw [replaceList]
  | cons c cs ih =>
    intro h
    rw [hasOccur, Bool.or_eq_false_iff] at h
    rw [replaceList_cons_neg pat rep c cs h.1, ih h.2]

/-- C8: `SubstitutePlaceholder` leaves the expression unchanged when the
placeholder name is empty or the token does not occur, and otherwise
replaces every literal occurrence of the token (scanning left to right,
non-overlapping) with the JSON-string-quoted, fully escaped literal of the
value. -/
theorem replacePlaceholder_spec (name value : List Char) :
    (∀ expr, replacePlaceholder expr [] value = expr) ∧
    (name ≠ [] →
      (replacePlaceholder [] name value = [] ∧
        (∀ l, replacePlaceholder (placeholderNeedle name ++ l) name value
          = jsonQuoteList value ++ replacePlaceholder l name value) ∧
        (∀ (c : Char) (l : List Char),
          (placeholderNeedle name).isPrefixOf (c :: l) = false →
          replacePlaceholder (c :: l) name value
            = c :: replacePlaceholder l name value) ∧
        (∀ expr, hasOccur (placeholderNeedle name) expr = false →
          replacePlaceholder expr name value = expr))) := by
  have hneedle : placeholderNeedle name ≠ [] := by simp [placeholderNeedle]
  refine ⟨fun expr => by simp [replacePlaceholder], fun hname => ⟨?_, ?_, ?_, ?_⟩⟩
  · simp [replacePlaceholder, hname, replaceList]
  · intro l
    simp only [replacePlaceholder, if_neg hname]
    exact replaceList_append _ _ l hneedle
  · intro c l h
    simp only [replacePlaceholder, if_neg hname]
    exact replaceList_cons_neg _ _ c l h
  · intro expr h
    simp only [replacePlaceholder, if_neg hname]
    exact replaceList_no_occur _ _ expr h

/-- C8 witness: substituting `value` with the quote-carrying text `a"b` in
the expression `@m = ` followed by the token produces the safely escaped
`@m = "a\"b"`. -/
theorem replacePlaceholder_spec_witness :
    replacePlaceholder "@m = \x7b\x7bvalue\x7d\x7d".data "value".data "a\"b".data
      = "@m = \"a\\\"b\"".data := by
  have h := (replacePlaceholder_spec "value".data "a\"b".data).2 (by decide)
  have e1 : "@m = \x7b\x7bvalue\x7d\x7d".data
      = '@' :: 'm' :: ' ' :: '=' :: ' ' :: (placeholderNeedle "value".data ++ []) := by
    decide
  rw [e1]
  rw [h.2.2.1 '@' ('m' :: ' ' :: '=' :: ' ' :: (placeholderNeedle "value".data ++ []))
    (by decide)]
  rw [h.2.2.1 'm' (' ' :: '=' :: ' ' :: (placeholderNeedle "value".data ++ []))
    (by decide)]
  rw [h.2.2.1 ' ' ('=' :: ' ' :: (placeholderNeedle "value".data ++ [])) (by decide)]
  rw [h.2.2.1 '=' (' ' :: (placeholderNeedle "value".data ++ [])) (by decide)]
  rw [h.2.2.1 ' ' (placeholderNeedle "value".data ++ []) (by decide)]
  rw [h.2.1 []]
  rw [h.1]
  decide

end AwsMultiLogInspector
